import Mathlib

/-!
Shallow embedding of the Apriori frequent-itemset miner and the
association-rule generator of this repository (src/apriori.py and
src/association.py), together with theorems settling the specification
claims about them.

Modelling conventions.

* An item is an `Int` (the source parses integer tokens).
* A raw transaction line of the input file is a `List Int`: the list of the
  comma-separated integer fields of the line, in file order.  Tokenisation
  of the raw text into integers is the concern of the external transaction
  source, per the specification; the core never inspects the raw string.
* The input file is a `List (List Int)` of raw lines in file order.
* Python `Counter` objects are modelled as insertion-ordered association
  lists `List (key × Nat)`, which is exactly the observable behaviour of an
  insertion-ordered dict counting occurrences: a key enters the list when
  first incremented, and `items()` iterates in insertion order.
* Python floats are modelled as `ℚ`; the specification states that the
  support ratio is real-number division of the integer count by `n`.
* The `for` loop that mutates its own iteration target (the pruning loop of
  `candidate_gen`) is modelled by index-passing recursion with an explicit
  fuel argument that is always sufficient (the index grows by one per step
  and the list never grows, so `C.length` steps exhaust the iterator); this
  reproduces the CPython iterator semantics, including the skip that
  happens when `list.remove` shifts elements under the iterator.
-/

namespace WebDataMining

/-! ### Insertion-ordered counters (`collections.Counter`) -/

/-- Value of a key in an insertion-ordered counter; missing keys count 0,
as in `collections.Counter.__getitem__`. -/
def lookupCnt {α : Type} [DecidableEq α] : List (α × Nat) → α → Nat
  | [], _ => 0
  | (k, v) :: rest, a => if k = a then v else lookupCnt rest a

/-- `count[key] += 1` on an insertion-ordered counter: increment in place if
the key exists, otherwise append the key at the end with value 1. -/
def bump {α : Type} [DecidableEq α] : List (α × Nat) → α → List (α × Nat)
  | [], a => [(a, 1)]
  | (k, v) :: rest, a => if k = a then (k, v + 1) :: rest else (k, v) :: bump rest a

/-- Well-formedness of a counter built by `bump` from `[]`: keys are
pairwise distinct and every stored value is positive. -/
def CounterWF {α : Type} (m : List (α × Nat)) : Prop :=
  m.Pairwise (fun p q => p.1 ≠ q.1) ∧ ∀ p ∈ m, 1 ≤ p.2

theorem counterWF_nil {α : Type} : CounterWF ([] : List (α × Nat)) :=
  ⟨List.Pairwise.nil, by intro p hp; cases hp⟩

theorem lookupCnt_bump {α : Type} [DecidableEq α] (m : List (α × Nat)) (a b : α) :
    lookupCnt (bump m a) b = lookupCnt m b + (if a = b then 1 else 0) := by
  induction m with
  | nil =>
    by_cases h : a = b <;> simp [bump, lookupCnt, h]
  | cons p rest ih =>
    obtain ⟨k, v⟩ := p
    by_cases hk : k = a
    · subst hk
      by_cases hb : k = b
      · subst hb; simp [bump, lookupCnt]
      · simp [bump, lookupCnt, hb]
    · by_cases hb : k = b
      · subst hb
        simp [bump, lookupCnt, hk]
        intro hab
        exact absurd hab.symm hk
      · simp [bump, lookupCnt, hk, hb, ih]

theorem fst_of_mem_bump {α : Type} [DecidableEq α] (m : List (α × Nat)) (a : α) :
    ∀ q ∈ bump m a, (∃ v, (q.1, v) ∈ m) ∨ q.1 = a := by
  induction m with
  | nil =>
    intro q hq
    simp [bump] at hq
    exact Or.inr (by simp [hq])
  | cons p rest ih =>
    obtain ⟨k0, v0⟩ := p
    intro q hq
    by_cases hk0 : k0 = a
    · subst hk0
      simp [bump] at hq
      rcases hq with h | h
      · exact Or.inr (by simp [h])
      · exact Or.inl ⟨q.2, by simp; exact Or.inr (by simpa using h)⟩
    · simp [bump, hk0] at hq
      rcases hq with h | h
      · exact Or.inl ⟨v0, by simp [h]⟩
      · rcases ih q h with ⟨v, hv⟩ | h1
        · exact Or.inl ⟨v, by simp; exact Or.inr hv⟩
        · exact Or.inr h1

theorem counterWF_bump {α : Type} [DecidableEq α] (m : List (α × Nat)) (a : α)
    (h : CounterWF m) : CounterWF (bump m a) := by
  induction m with
  | nil =>
    refine ⟨by simp [bump], ?_⟩
    intro p hp; simp [bump] at hp; simp [hp]
  | cons p rest ih =>
    obtain ⟨k0, v0⟩ := p
    obtain ⟨hnd, hpos⟩ := h
    rw [List.pairwise_cons] at hnd
    have hwf : CounterWF rest := ⟨hnd.2, fun q hq => hpos q (List.mem_cons_of_mem _ hq)⟩
    by_cases hk0 : k0 = a
    · subst hk0
      refine ⟨?_, ?_⟩
      · simp only [bump, if_pos rfl]
        exact List.pairwise_cons.mpr ⟨hnd.1, hnd.2⟩
      · intro q hq
        simp only [bump, if_pos rfl] at hq
        rcases List.mem_cons.mp hq with h | h
        · simp [h]
        · exact hpos q (List.mem_cons_of_mem _ h)
    · obtain ⟨ind, ipos⟩ := ih hwf
      refine ⟨?_, ?_⟩
      · simp only [bump, if_neg hk0]
        refine List.pairwise_cons.mpr ⟨?_, ind⟩
        intro q hq
        rcases fst_of_mem_bump rest a q hq with ⟨v, hv⟩ | h1
        · exact hnd.1 (q.1, v) hv
        · rw [h1]; exact hk0
      · intro q hq
        simp only [bump, if_neg hk0] at hq
        rcases List.mem_cons.mp hq with h | h
        · subst h; exact hpos (k0, v0) (List.mem_cons_self _ _)
        · exact ipos q h

theorem lookupCnt_eq_of_mem {α : Type} [DecidableEq α]
    (m : List (α × Nat)) (h : CounterWF m) (a : α) (v : Nat)
    (hm : (a, v) ∈ m) : lookupCnt m a = v := by
  induction m with
  | nil => cases hm
  | cons p rest ih =>
    obtain ⟨k0, v0⟩ := p
    obtain ⟨hnd, hpos⟩ := h
    rw [List.pairwise_cons] at hnd
    have hwf : CounterWF rest := ⟨hnd.2, fun q hq => hpos q (List.mem_cons_of_mem _ hq)⟩
    rcases List.mem_cons.mp hm with h1 | h1
    · have ha : k0 = a := by
        have := congrArg Prod.fst h1.symm
        simpa using this
      have hv : v0 = v := by
        have := congrArg Prod.snd h1.symm
        simpa using this
      simp [lookupCnt, ha, hv]
    · have hka : k0 ≠ a := hnd.1 (a, v) h1
      simp [lookupCnt, hka]
      exact ih hwf h1

theorem pos_of_mem {α : Type} (m : List (α × Nat)) (h : CounterWF m)
    (a : α) (v : Nat) (hm : (a, v) ∈ m) : 1 ≤ v :=
  h.2 (a, v) hm

theorem mem_of_lookupCnt_pos {α : Type} [DecidableEq α]
    (m : List (α × Nat)) (a : α)
    (hp : 1 ≤ lookupCnt m a) : (a, lookupCnt m a) ∈ m := by
  induction m with
  | nil => simp [lookupCnt] at hp
  | cons p rest ih =>
    obtain ⟨k0, v0⟩ := p
    by_cases hk : k0 = a
    · subst hk
      simp [lookupCnt]
    · simp only [lookupCnt, if_neg hk] at hp ⊢
      exact List.mem_cons_of_mem _ (ih hp)

theorem exists_mem_iff_lookupCnt_pos {α : Type} [DecidableEq α]
    (m : List (α × Nat)) (h : CounterWF m) (a : α) :
    (∃ v, (a, v) ∈ m) ↔ 1 ≤ lookupCnt m a := by
  constructor
  · rintro ⟨v, hv⟩
    rw [lookupCnt_eq_of_mem m h a v hv]
    exact pos_of_mem m h a v hv
  · intro hp
    exact ⟨lookupCnt m a, mem_of_lookupCnt_pos m a hp⟩

/-! ### Line parsing

Each scan parses a raw line with
`{int(n) for n in line.replace("\n", "").split(",")[1:]}`: the first
comma-separated field (the transaction index) is dropped unconditionally
and the remaining fields form a set.  We keep the set as a
first-occurrence-ordered duplicate-free list; every use of the parsed line
(membership, subset tests, one count per distinct item) depends only on
membership, which this preserves exactly.  CPython iterates a set in an
implementation-defined order, which can permute `F_1` (and hence later
levels); all membership and count statements below are insensitive to that
order, and the order-sensitive prune-skip evaluation is performed on an
explicitly ordered literal input. -/

/-- Parsed item set of one raw line: drop the first field, remove
duplicates. -/
def parseLine (line : List Int) : List Int :=
  (line.drop 1).dedup

/-- `set(c).issubset(t)`: every item of `c` is an item of `t`. -/
def subOf (c t : List Int) : Bool :=
  c.all fun x => x ∈ t

/-- Number of transactions whose item set contains `c` as a subset.  This
is the specification notion of support count. -/
def supportCount (c : List Int) (lines : List (List Int)) : Nat :=
  (lines.map parseLine).countP fun t => subOf c t

/-- Number of transactions whose item set contains the item `i`. -/
def itemCount (i : Int) (lines : List (List Int)) : Nat :=
  (lines.map parseLine).countP fun t => i ∈ t

/-! ### `candidate_gen` (src/apriori.py lines 120-224)

The join step iterates `itertools.combinations(F_k_minus_1, 2)`; the prune
step iterates the freshly built candidate list while calling
`C_k.remove(c_k)` on it, which in CPython shifts the successor of a removed
element under the iterator so that the successor is never examined. -/

/-- `itertools.combinations(l, 2)`: all index-ordered pairs. -/
def combinations2 {α : Type} : List α → List (α × α)
  | [] => []
  | x :: xs => (xs.map fun y => (x, y)) ++ combinations2 xs

/-- `itertools.combinations(c, len(c) - 1)` up to order of enumeration:
all lists obtained from `c` by deleting exactly one element. -/
def deleteOnes : List Int → List (List Int)
  | [] => []
  | a :: t => t :: (deleteOnes t).map fun s => a :: s

/-- One iteration of the join loop body as a partial map: a pair of
itemsets agreeing everywhere but in the last place yields the shorter
itemset with the larger last element appended (src lines 199-204). -/
def joinPairCode (p : List Int × List Int) : Option (List Int) :=
  if p.1.dropLast = p.2.dropLast ∧ p.1.getLastD 0 ≠ p.2.getLastD 0 then
    if p.2.getLastD 0 < p.1.getLastD 0 then some (p.2 ++ [p.1.getLastD 0])
    else some (p.1 ++ [p.2.getLastD 0])
  else none

/-- The join step: fold the loop body over all combinations, appending each
produced candidate to the accumulator list `C_k`. -/
def joinStep (F : List (List Int)) : List (List Int) :=
  (combinations2 F).foldl
    (fun acc p =>
      if p.1.dropLast = p.2.dropLast ∧ p.1.getLastD 0 ≠ p.2.getLastD 0 then
        if p.2.getLastD 0 < p.1.getLastD 0 then acc ++ [p.2 ++ [p.1.getLastD 0]]
        else acc ++ [p.1 ++ [p.2.getLastD 0]]
      else acc)
    []

/-- The removal condition of the prune loop for a single candidate subset:
`any([list(sub) not in F_k_minus_1 for c in sub])`, which is true iff the
subset tuple is non-empty and absent from `F_k_minus_1`. -/
def subMissing (F : List (List Int)) (sub : List Int) : Bool :=
  decide (sub ≠ [] ∧ sub ∉ F)

/-- A candidate is removed by the prune loop iff some delete-one subset
triggers the removal condition. -/
def badCand (F : List (List Int)) (c : List Int) : Bool :=
  (deleteOnes c).any fun sub => subMissing F sub

/-- The prune loop with CPython `for` semantics over a mutating list: the
iterator keeps a position `i`; the element at position `i` is examined and,
if some delete-one subset is missing from `F`, removed in place
(`C_k.remove`), after which the iterator still advances to position `i+1`
of the mutated list, skipping the element that slid into position `i`.
The fuel argument is always at least the number of remaining iterations
(the position grows by one per step and the list never grows), so the fuel
pattern is exact, not an approximation. -/
def pruneGo (F : List (List Int)) : Nat → List (List Int) → Nat → List (List Int)
  | 0, C, _ => C
  | fuel + 1, C, i =>
    if h : i < C.length then
      pruneGo F fuel (if badCand F (C.get ⟨i, h⟩) then C.erase (C.get ⟨i, h⟩) else C) (i + 1)
    else C

/-- `candidate_gen(F_k_minus_1)`: join step followed by the prune loop. -/
def candidate_gen (F : List (List Int)) : List (List Int) :=
  pruneGo F (joinStep F).length (joinStep F) 0

/-! ### `init_pass` (src/apriori.py lines 11-48) -/

/-- The singleton counter of `init_pass`: one pass over the file; for each
line, each distinct item of the parsed line is counted once. -/
def itemCounts (lines : List (List Int)) : List (Int × Nat) :=
  lines.foldl (fun m line => (parseLine line).foldl bump m) []

/-- `init_pass(file, minsup)`: returns the list of singleton itemsets whose
support ratio strictly exceeds `minsup`, together with the number of lines
`n`.  The comprehension keeps counter insertion order. -/
def init_pass (lines : List (List Int)) (minsup : ℚ) : List (List Int) × Nat :=
  ((itemCounts lines).filterMap
      (fun p => if (p.2 : ℚ) / (lines.length : ℚ) > minsup then some [p.1] else none),
    lines.length)

/-! ### The level loop of `apriori` (src/apriori.py lines 51-117) -/

/-- The per-level counting scan: for each line, for each candidate of `C_k`
in list order, if the candidate is a subset of the parsed line, bump the
counter keyed by the candidate tuple. -/
def countSupport (C : List (List Int)) (lines : List (List Int)) : List (List Int × Nat) :=
  lines.foldl
    (fun m line => C.foldl (fun m2 c => if subOf c (parseLine line) then bump m2 c else m2) m)
    []

/-- The filtering comprehension of line 115:
`[[*item] for (item, count) in count.items() if count / n > minsup]`. -/
def levelFilter (n : Nat) (minsup : ℚ) (m : List (List Int × Nat)) : List (List Int) :=
  m.filterMap fun p => if (p.2 : ℚ) / (n : ℚ) > minsup then some p.1 else none

/-- One iteration of the `while F_k_minus_1` loop body: generate `C_k`,
scan the file counting support, filter by strict support ratio. -/
def aprioriStep (Fprev : List (List Int)) (lines : List (List Int)) (n : Nat)
    (minsup : ℚ) : List (List Int) :=
  levelFilter n minsup (countSupport (candidate_gen Fprev) lines)

/-- The frequent-itemset level sequence of the miner: `flevel 0` is the
`init_pass` result `F_1`, and `flevel (k+1)` applies one loop body to
`flevel k`.  Once a level is empty every later level is empty, matching
loop exit. -/
def flevel (lines : List (List Int)) (minsup : ℚ) : Nat → List (List Int)
  | 0 => (init_pass lines minsup).1
  | k + 1 => aprioriStep (flevel lines minsup k) lines lines.length minsup

/-- The accumulating `while` loop of `apriori`: `acc` is the running `F_k`
tally, `Fprev` is `F_k_minus_1`.  The fuel argument bounds the number of
iterations; `aprioriFuel` below always exceeds the number of non-empty
levels, so the model agrees with the unbounded loop
(`apriori_fuel_exact`). -/
def aprioriGo (lines : List (List Int)) (n : Nat) (minsup : ℚ) :
    Nat → List (List Int) → List (List Int) → List (List Int)
  | 0, acc, _ => acc
  | fuel + 1, acc, Fprev =>
    if Fprev = [] then acc
    else aprioriGo lines n minsup fuel (acc ++ aprioriStep Fprev lines n minsup)
      (aprioriStep Fprev lines n minsup)

/-- Fuel bound for the level loop: two more than the number of distinct
items occurring in the parsed transactions.  Every member of a level is a
duplicate-free list of such items, and level `k` holds lists of length
`k + 1`, so all levels from this bound on are empty. -/
def aprioriFuel (lines : List (List Int)) : Nat :=
  (((lines.map parseLine).foldr (· ++ ·) []).dedup).length + 2

/-- `apriori(file, minsup, noindex)`.  The `noindex` parameter is accepted
and, exactly as in the source, never read by the body. -/
def apriori (lines : List (List Int)) (minsup : ℚ) (noindex : Bool) : List (List Int) :=
  aprioriGo lines (init_pass lines minsup).2 minsup (aprioriFuel lines)
    (init_pass lines minsup).1 (init_pass lines minsup).1

/-! ### `ap_genRules` (src/association.py lines 19-60)

The combined counting scan of lines 36-49 tallies `tuple(f_k)` when the
line contains `f_k` and `tuple(h)` when the line contains the symmetric
difference of `f_k` and `h`.  The confidence loop of lines 55-59 then
evaluates `counts[tuple(f_k)] / counts[set(h_k_plus_1)]`, which faults on
its first iteration: `set` objects are unhashable, so indexing the Counter
with `set(h_k_plus_1)` raises `TypeError` (and when the file is empty the
scan loop never ran, so the stale name `h_k_plus_1` is unbound and the
lookup raises `NameError` first).  Hence whenever the guard holds and the
grown consequent set is non-empty the call raises; the recursion proceeds
only with an empty consequent set, which the guard then rejects. -/

/-- Python runtime faults that `ap_genRules` can raise. -/
inductive PyErr : Type
  | typeError : PyErr
  | nameError : PyErr
deriving DecidableEq

/-- Membership-accurate model of
`set(f_k).symmetric_difference(set(h))` as a duplicate-free list. -/
def symmDiff (a b : List Int) : List Int :=
  (a.dedup.filter fun x => x ∉ b) ++ (b.dedup.filter fun x => x ∉ a)

/-- The combined counting scan of src/association.py lines 36-49. -/
def ruleCounts (f_k : List Int) (H1 : List (List Int)) (lines : List (List Int)) :
    List (List Int × Nat) :=
  lines.foldl
    (fun m line =>
      let checkSet := parseLine line
      let m1 := if subOf f_k checkSet then bump m f_k else m
      H1.foldl (fun m2 h => if subOf (symmDiff f_k h) checkSet then bump m2 h else m2) m1)
    []

/-- `ap_genRules(f_k, H_m, n, minconf, file)`.  The guard is line 29; the
grown consequent set is `candidate_gen H_m`; the counting scan result is
bound (and then never consulted, because the confidence loop faults before
reading it consistently); the recursion of line 60 is reached only when
the grown consequent set is empty. -/
def ap_genRules (f_k : List Int) (H_m : List (List Int)) (n : Nat) (minconf : ℚ)
    (lines : List (List Int)) : Except PyErr Unit :=
  if h : H_m ≠ [] ∧ f_k ≠ [] ∧ H_m.headI.length < f_k.length then
    match candidate_gen H_m with
    | [] => ap_genRules f_k [] n minconf lines
    | _ :: _ =>
      let _counts := ruleCounts f_k (candidate_gen H_m) lines
      if lines = [] then Except.error PyErr.nameError
      else Except.error PyErr.typeError
  else Except.ok ()
termination_by H_m.length
decreasing_by
  simp only [List.length_nil]
  exact List.length_pos.mpr h.1

/-- Fuel-indexed variant of `ap_genRules` used to state termination:
`none` means the recursion depth exceeded the fuel. -/
def ap_genRulesGo (fuel : Nat) (f_k : List Int) (H_m : List (List Int)) (n : Nat)
    (minconf : ℚ) (lines : List (List Int)) : Option (Except PyErr Unit) :=
  match fuel with
  | 0 => none
  | fuel + 1 =>
    if H_m ≠ [] ∧ f_k ≠ [] ∧ H_m.headI.length < f_k.length then
      match candidate_gen H_m with
      | [] => ap_genRulesGo fuel f_k [] n minconf lines
      | _ :: _ =>
        let _counts := ruleCounts f_k (candidate_gen H_m) lines
        if lines = [] then some (Except.error PyErr.nameError)
        else some (Except.error PyErr.typeError)
    else some (Except.ok ())

/-! ### Lemmas about `combinations2` -/

theorem mem_of_mem_combinations2 {α : Type} (l : List α) (p : α × α)
    (h : p ∈ combinations2 l) : p.1 ∈ l ∧ p.2 ∈ l := by
  induction l with
  | nil => cases h
  | cons x xs ih =>
    simp only [combinations2, List.mem_append, List.mem_map] at h
    rcases h with ⟨y, hy, rfl⟩ | h
    · exact ⟨List.mem_cons_self _ _, List.mem_cons_of_mem _ hy⟩
    · obtain ⟨h1, h2⟩ := ih h
      exact ⟨List.mem_cons_of_mem _ h1, List.mem_cons_of_mem _ h2⟩

theorem combinations2_total {α : Type} (l : List α) (x y : α)
    (hx : x ∈ l) (hy : y ∈ l) (hne : x ≠ y) :
    (x, y) ∈ combinations2 l ∨ (y, x) ∈ combinations2 l := by
  induction l with
  | nil => cases hx
  | cons z zs ih =>
    rcases List.mem_cons.mp hx with rfl | hx1
    · have hy1 : y ∈ zs := by
        rcases List.mem_cons.mp hy with h | h
        · exact absurd h.symm hne
        · exact h
      exact Or.inl (by simp [combinations2]; exact Or.inl hy1)
    · rcases List.mem_cons.mp hy with rfl | hy1
      · exact Or.inr (by simp [combinations2]; exact Or.inl hx1)
      · rcases ih hx1 hy1 with h | h
        · exact Or.inl (by simp [combinations2]; exact Or.inr h)
        · exact Or.inr (by simp [combinations2]; exact Or.inr h)

theorem combinations2_asymm {α : Type} (l : List α) (hl : l.Nodup) (x y : α)
    (h1 : (x, y) ∈ combinations2 l) (h2 : (y, x) ∈ combinations2 l) : False := by
  induction l with
  | nil => cases h1
  | cons z zs ih =>
    rw [List.nodup_cons] at hl
    simp only [combinations2, List.mem_append] at h1 h2
    rcases h1 with h1 | h1
    · obtain ⟨y1, hy1, heq1⟩ := List.mem_map.mp h1
      have hzx : z = x := congrArg Prod.fst heq1
      have hy1y : y1 = y := congrArg Prod.snd heq1
      rcases h2 with h2 | h2
      · obtain ⟨y2, hy2, heq2⟩ := List.mem_map.mp h2
        have hzy : z = y := congrArg Prod.fst heq2
        exact hl.1 (by rw [hzy, ← hy1y]; exact hy1)
      · refine hl.1 ?_
        rw [hzx]
        exact (mem_of_mem_combinations2 zs (y, x) h2).2
    · rcases h2 with h2 | h2
      · obtain ⟨y2, hy2, heq2⟩ := List.mem_map.mp h2
        have hzy : z = y := congrArg Prod.fst heq2
        refine hl.1 ?_
        rw [hzy]
        exact (mem_of_mem_combinations2 zs (x, y) h1).2
      · exact ih hl.2 h1 h2

theorem combinations2_nodup {α : Type} (l : List α) (hl : l.Nodup) :
    (combinations2 l).Nodup := by
  induction l with
  | nil => exact List.nodup_nil
  | cons z zs ih =>
    rw [List.nodup_cons] at hl
    simp only [combinations2]
    refine List.Nodup.append ?_ (ih hl.2) ?_
    · exact hl.2.map (fun a b hab => by simpa using congrArg Prod.snd hab)
    · intro p hp1 hp2
      obtain ⟨y, _, rfl⟩ := List.mem_map.mp hp1
      exact hl.1 (mem_of_mem_combinations2 zs (z, y) hp2).1

/-! ### Lemmas about `deleteOnes` -/

theorem sublist_of_mem_deleteOnes (c s : List Int) (h : s ∈ deleteOnes c) :
    List.Sublist s c ∧ s.length + 1 = c.length := by
  induction c generalizing s with
  | nil => cases h
  | cons a t ih =>
    simp only [deleteOnes, List.mem_cons, List.mem_map] at h
    rcases h with rfl | ⟨s0, hs0, rfl⟩
    · exact ⟨List.sublist_cons_self a s, rfl⟩
    · obtain ⟨h1, h2⟩ := ih s0 hs0
      exact ⟨List.Sublist.cons₂ a h1, by simpa using h2⟩

theorem deleteOnes_dropLast (p : List Int) (a b : Int) :
    p ++ [a] ∈ deleteOnes (p ++ [a, b]) := by
  induction p with
  | nil => simp [deleteOnes]
  | cons x q ih =>
    simp only [List.cons_append, deleteOnes, List.mem_cons, List.mem_map]
    exact Or.inr ⟨q ++ [a], ih, rfl⟩

theorem deleteOnes_dropPenultimate (p : List Int) (a b : Int) :
    p ++ [b] ∈ deleteOnes (p ++ [a, b]) := by
  induction p with
  | nil => simp [deleteOnes]
  | cons x q ih =>
    simp only [List.cons_append, deleteOnes, List.mem_cons, List.mem_map]
    exact Or.inr ⟨q ++ [b], ih, rfl⟩

/-! ### Lemmas about the join step -/

theorem foldl_optAppend {γ β : Type} (g : γ → Option β) (l : List γ) :
    ∀ acc : List β,
      l.foldl (fun a p => a ++ (g p).toList) acc = acc ++ l.filterMap g := by
  induction l with
  | nil => intro acc; simp
  | cons x xs ih =>
    intro acc
    cases hx : g x with
    | none => simp [List.filterMap_cons, hx, ih]
    | some b => simp [List.filterMap_cons, hx, ih]

theorem joinStep_eq_filterMap (F : List (List Int)) :
    joinStep F = (combinations2 F).filterMap joinPairCode := by
  have hbody :
      (fun (acc : List (List Int)) (p : List Int × List Int) =>
        if p.1.dropLast = p.2.dropLast ∧ p.1.getLastD 0 ≠ p.2.getLastD 0 then
          if p.2.getLastD 0 < p.1.getLastD 0 then acc ++ [p.2 ++ [p.1.getLastD 0]]
          else acc ++ [p.1 ++ [p.2.getLastD 0]]
        else acc) =
      fun acc p => acc ++ (joinPairCode p).toList := by
    funext acc p
    unfold joinPairCode
    by_cases h1 : p.1.dropLast = p.2.dropLast ∧ p.1.getLastD 0 ≠ p.2.getLastD 0
    · rw [if_pos h1, if_pos h1]
      by_cases h2 : p.2.getLastD 0 < p.1.getLastD 0
      · rw [if_pos h2, if_pos h2, Option.toList_some]
      · rw [if_neg h2, if_neg h2, Option.toList_some]
    · rw [if_neg h1, if_neg h1, Option.toList_none, List.append_nil]
  rw [joinStep, hbody, foldl_optAppend]
  exact List.nil_append _

theorem joinPairCode_concat (p q : List Int) (a b : Int) :
    joinPairCode (p ++ [a], q ++ [b]) =
      if p = q ∧ a ≠ b then some (p ++ [min a b, max a b]) else none := by
  unfold joinPairCode
  dsimp only
  rw [List.dropLast_concat, List.dropLast_concat, List.getLastD_concat,
    List.getLastD_concat]
  by_cases h : p = q ∧ a ≠ b
  · obtain ⟨rfl, hab⟩ := h
    rcases lt_or_gt_of_ne hab with hlt | hgt
    · have : ¬ b < a := not_lt_of_gt hlt
      simp [hab, this, min_eq_left (le_of_lt hlt), max_eq_right (le_of_lt hlt)]
    · simp [hab, hgt, min_eq_right (le_of_lt hgt), max_eq_left (le_of_lt hgt)]
  · rw [if_neg h, if_neg h]

theorem mem_joinStep_struct (F : List (List Int)) (c : List Int)
    (h : c ∈ joinStep F) :
    ∃ p ∈ combinations2 F, joinPairCode p = some c := by
  rw [joinStep_eq_filterMap] at h
  exact List.mem_filterMap.mp h

theorem joinStep_mem_of_pair (F : List (List Int)) (p : List Int × List Int) (c : List Int)
    (hp : p ∈ combinations2 F) (hc : joinPairCode p = some c) :
    c ∈ joinStep F := by
  rw [joinStep_eq_filterMap]
  exact List.mem_filterMap.mpr ⟨p, hp, hc⟩

/-! ### Lemmas about the prune loop -/

theorem pruneGo_sublist (F : List (List Int)) :
    ∀ (fuel : Nat) (C : List (List Int)) (i : Nat), List.Sublist (pruneGo F fuel C i) C := by
  intro fuel
  induction fuel with
  | zero => intro C i; exact List.Sublist.refl C
  | succ fuel ih =>
    intro C i
    unfold pruneGo
    by_cases h : i < C.length
    · rw [dif_pos h]
      by_cases hb : badCand F (C.get ⟨i, h⟩)
      · rw [if_pos hb]
        exact (ih _ _).trans (C.erase_sublist _)
      · rw [if_neg hb]
        exact ih _ _
    · rw [dif_neg h]

theorem pruneGo_keeps (F : List (List Int)) :
    ∀ (fuel : Nat) (C : List (List Int)) (i : Nat) (x : List Int),
      x ∈ C → badCand F x = false → x ∈ pruneGo F fuel C i := by
  intro fuel
  induction fuel with
  | zero => intro C i x hx _; exact hx
  | succ fuel ih =>
    intro C i x hx hgood
    unfold pruneGo
    by_cases h : i < C.length
    · rw [dif_pos h]
      by_cases hb : badCand F (C.get ⟨i, h⟩)
      · rw [if_pos hb]
        refine ih _ _ x ?_ hgood
        have hne : x ≠ C.get ⟨i, h⟩ := by
          intro he
          rw [← he] at hb
          rw [hgood] at hb
          cases hb
        exact (List.mem_erase_of_ne hne).mpr hx
      · rw [if_neg hb]
        exact ih _ _ x hx hgood
    · rw [dif_neg h]
      exact hx

theorem candidate_gen_sublist_join (F : List (List Int)) :
    List.Sublist (candidate_gen F) (joinStep F) :=
  pruneGo_sublist F _ _ _

theorem candidate_gen_keeps (F : List (List Int)) (x : List Int)
    (hx : x ∈ joinStep F) (hgood : badCand F x = false) : x ∈ candidate_gen F :=
  pruneGo_keeps F _ _ _ x hx hgood

/-! ### Counting-scan lemmas -/

theorem counterWF_foldl {α β : Type} (f : List (α × Nat) → β → List (α × Nat))
    (hf : ∀ m a, CounterWF m → CounterWF (f m a)) :
    ∀ (l : List β) (m : List (α × Nat)), CounterWF m → CounterWF (l.foldl f m) := by
  intro l
  induction l with
  | nil => intro m hm; exact hm
  | cons a t ih => intro m hm; exact ih (f m a) (hf m a hm)

theorem lookupCnt_scanLine (t : List Int) :
    ∀ (C : List (List Int)), C.Nodup →
      ∀ (m : List (List Int × Nat)) (c : List Int),
        lookupCnt (C.foldl (fun m2 c2 => if subOf c2 t then bump m2 c2 else m2) m) c =
          lookupCnt m c + (if c ∈ C ∧ subOf c t then 1 else 0) := by
  intro C
  induction C with
  | nil => intro _ m c; simp
  | cons c2 C2 ih =>
    intro hnd m c
    rw [List.nodup_cons] at hnd
    simp only [List.foldl_cons]
    rw [ih hnd.2]
    by_cases hc : c2 = c
    · subst hc
      have hnotin : c2 ∉ C2 := hnd.1
      by_cases hs : subOf c2 t
      · rw [if_pos hs, lookupCnt_bump, if_pos rfl]
        rw [if_neg (by intro hcon; exact hnotin hcon.1)]
        rw [if_pos ⟨List.mem_cons_self _ _, hs⟩]
      · rw [if_neg hs]
        rw [if_neg (by intro hcon; exact hnotin hcon.1)]
        rw [if_neg (by intro hcon; exact hs hcon.2)]
    · have hmem : (c ∈ c2 :: C2 ∧ subOf c t) ↔ (c ∈ C2 ∧ subOf c t) := by
        constructor
        · rintro ⟨h1, h2⟩
          rcases List.mem_cons.mp h1 with h | h
          · exact absurd h.symm hc
          · exact ⟨h, h2⟩
        · rintro ⟨h1, h2⟩
          exact ⟨List.mem_cons_of_mem _ h1, h2⟩
      rw [if_congr hmem rfl rfl]
      by_cases hs : subOf c2 t
      · rw [if_pos hs, lookupCnt_bump, if_neg hc]
        omega
      · rw [if_neg hs]

theorem lookupCnt_countSupport_gen (C : List (List Int)) (hC : C.Nodup) :
    ∀ (lines : List (List Int)) (m : List (List Int × Nat)) (c : List Int),
      lookupCnt
          (lines.foldl
            (fun m line =>
              C.foldl (fun m2 c2 => if subOf c2 (parseLine line) then bump m2 c2 else m2) m)
            m) c =
        lookupCnt m c +
          (if c ∈ C then (lines.map parseLine).countP (fun t => subOf c t) else 0) := by
  intro lines
  induction lines with
  | nil => intro m c; simp
  | cons line rest ih =>
    intro m c
    simp only [List.foldl_cons, List.map_cons, List.countP_cons]
    rw [ih, lookupCnt_scanLine (parseLine line) C hC]
    by_cases hmem : c ∈ C
    · rw [if_pos hmem, if_pos hmem]
      by_cases hs : subOf c (parseLine line)
      · rw [if_pos ⟨hmem, hs⟩, if_pos hs]
        omega
      · rw [if_neg (by intro hcon; exact hs hcon.2), if_neg hs]
        omega
    · rw [if_neg hmem, if_neg hmem, if_neg (by intro hcon; exact hmem hcon.1)]

theorem lookupCnt_countSupport (C : List (List Int)) (lines : List (List Int))
    (hC : C.Nodup) (c : List Int) :
    lookupCnt (countSupport C lines) c =
      if c ∈ C then supportCount c lines else 0 := by
  have := lookupCnt_countSupport_gen C hC lines [] c
  simpa [countSupport, supportCount, lookupCnt] using this

theorem counterWF_countSupport (C : List (List Int)) (lines : List (List Int)) :
    CounterWF (countSupport C lines) := by
  refine counterWF_foldl _ ?_ lines [] counterWF_nil
  intro m line hm
  refine counterWF_foldl _ ?_ C m hm
  intro m2 c2 hm2
  by_cases hs : subOf c2 (parseLine line)
  · rw [if_pos hs]; exact counterWF_bump m2 c2 hm2
  · rw [if_neg hs]; exact hm2

/-! ### Filter-comprehension lemmas -/

theorem mem_levelFilter (n : Nat) (ms : ℚ) (m : List (List Int × Nat)) (c : List Int) :
    c ∈ levelFilter n ms m ↔ ∃ v, (c, v) ∈ m ∧ (v : ℚ) / (n : ℚ) > ms := by
  unfold levelFilter
  rw [List.mem_filterMap]
  constructor
  · rintro ⟨⟨p1, p2⟩, hp, hsome⟩
    by_cases hcond : (p2 : ℚ) / (n : ℚ) > ms
    · rw [if_pos hcond] at hsome
      obtain rfl : p1 = c := Option.some.inj hsome
      exact ⟨p2, hp, hcond⟩
    · rw [if_neg hcond] at hsome
      cases hsome
  · rintro ⟨v, hv, hcond⟩
    exact ⟨(c, v), hv, by rw [if_pos hcond]⟩

theorem filterMap_guard_eq {α β : Type} (P : α → Prop) [DecidablePred P] (g : α → β)
    (L : List α) :
    L.filterMap (fun p => if P p then some (g p) else none) =
      (L.filter fun p => decide (P p)).map g := by
  induction L with
  | nil => rfl
  | cons x xs ih =>
    by_cases h : P x
    · simp [List.filterMap_cons, List.filter_cons, h, ih]
    · simp [List.filterMap_cons, List.filter_cons, h, ih]

theorem levelFilter_nodup (n : Nat) (ms : ℚ) (m : List (List Int × Nat))
    (h : m.Pairwise fun p q => p.1 ≠ q.1) : (levelFilter n ms m).Nodup := by
  rw [levelFilter, filterMap_guard_eq (fun p => (p.2 : ℚ) / (n : ℚ) > ms) Prod.fst m]
  exact (h.filter _).map Prod.fst (fun a b hab => hab)

/-! ### `init_pass` lemmas -/

theorem lookupCnt_bumpFold (t : List Int) (ht : t.Nodup) :
    ∀ (m : List (Int × Nat)) (i : Int),
      lookupCnt (t.foldl bump m) i = lookupCnt m i + (if i ∈ t then 1 else 0) := by
  induction t with
  | nil => intro m i; simp
  | cons a t2 ih =>
    rw [List.nodup_cons] at ht
    intro m i
    simp only [List.foldl_cons]
    rw [ih ht.2, lookupCnt_bump]
    by_cases hai : a = i
    · subst hai
      rw [if_pos rfl, if_neg ht.1, if_pos (List.mem_cons_self _ _)]
    · rw [if_neg hai]
      by_cases hit : i ∈ t2
      · rw [if_pos hit, if_pos (List.mem_cons_of_mem _ hit)]
      · rw [if_neg hit, if_neg ?_]
        intro hcon
        rcases List.mem_cons.mp hcon with h | h
        · exact hai h.symm
        · exact hit h

theorem lookupCnt_itemCounts_gen :
    ∀ (lines : List (List Int)) (m : List (Int × Nat)) (i : Int),
      lookupCnt (lines.foldl (fun m line => (parseLine line).foldl bump m) m) i =
        lookupCnt m i + (lines.map parseLine).countP (fun t => decide (i ∈ t)) := by
  intro lines
  induction lines with
  | nil => intro m i; simp
  | cons line rest ih =>
    intro m i
    simp only [List.foldl_cons, List.map_cons, List.countP_cons]
    rw [ih, lookupCnt_bumpFold (parseLine line) (List.nodup_dedup _) m i]
    by_cases hmem : i ∈ parseLine line
    · rw [if_pos hmem]
      simp [hmem]
      omega
    · rw [if_neg hmem]
      simp [hmem]

theorem lookupCnt_itemCounts (lines : List (List Int)) (i : Int) :
    lookupCnt (itemCounts lines) i = itemCount i lines := by
  have := lookupCnt_itemCounts_gen lines [] i
  simpa [itemCounts, itemCount, lookupCnt] using this

theorem counterWF_itemCounts (lines : List (List Int)) :
    CounterWF (itemCounts lines) := by
  refine counterWF_foldl _ ?_ lines [] counterWF_nil
  intro m line hm
  exact counterWF_foldl bump (fun m2 a hm2 => counterWF_bump m2 a hm2) (parseLine line) m hm

theorem mem_init_pass (lines : List (List Int)) (ms : ℚ) (x : List Int) :
    x ∈ (init_pass lines ms).1 ↔
      ∃ i, x = [i] ∧ 1 ≤ itemCount i lines ∧
        (itemCount i lines : ℚ) / (lines.length : ℚ) > ms := by
  unfold init_pass
  rw [List.mem_filterMap]
  constructor
  · rintro ⟨⟨p1, p2⟩, hp, hsome⟩
    by_cases hcond : (p2 : ℚ) / (lines.length : ℚ) > ms
    · rw [if_pos hcond] at hsome
      obtain rfl : [p1] = x := Option.some.inj hsome
      have hv : lookupCnt (itemCounts lines) p1 = p2 :=
        lookupCnt_eq_of_mem _ (counterWF_itemCounts lines) p1 p2 hp
      have hpos : 1 ≤ p2 := pos_of_mem _ (counterWF_itemCounts lines) p1 p2 hp
      refine ⟨p1, rfl, ?_, ?_⟩
      · rw [← lookupCnt_itemCounts lines p1, hv]; exact hpos
      · rw [← lookupCnt_itemCounts lines p1, hv]; exact hcond
    · rw [if_neg hcond] at hsome
      cases hsome
  · rintro ⟨i, rfl, hpos, hcond⟩
    have hv : lookupCnt (itemCounts lines) i = itemCount i lines :=
      lookupCnt_itemCounts lines i
    refine ⟨(i, itemCount i lines), ?_, ?_⟩
    · have := mem_of_lookupCnt_pos (itemCounts lines) i (by rw [hv]; exact hpos)
      rw [hv] at this
      exact this
    · rw [if_pos hcond]

theorem init_pass_nodup (lines : List (List Int)) (ms : ℚ) :
    ((init_pass lines ms).1).Nodup := by
  have heq : (init_pass lines ms).1 =
      ((itemCounts lines).filter
          fun p => decide ((p.2 : ℚ) / (lines.length : ℚ) > ms)).map
        (fun p => [p.1]) := by
    unfold init_pass
    exact filterMap_guard_eq (fun p => (p.2 : ℚ) / (lines.length : ℚ) > ms)
      (fun p => [p.1]) (itemCounts lines)
  rw [heq]
  have hpw := (counterWF_itemCounts lines).1
  exact (hpw.filter _).map _ (fun a b hab hx => hab (by simpa using hx))

/-! ### Structure of join-step output -/

theorem joinPair_cases (u v c : List Int) (hu : u ≠ []) (hv : v ≠ [])
    (h : joinPairCode (u, v) = some c) :
    ∃ p m M, m < M ∧ c = p ++ [m, M] ∧
      ((u = p ++ [m] ∧ v = p ++ [M]) ∨ (u = p ++ [M] ∧ v = p ++ [m])) := by
  obtain ⟨p, a, rfl⟩ := (List.eq_nil_or_concat u).resolve_left hu
  obtain ⟨q, b, rfl⟩ := (List.eq_nil_or_concat v).resolve_left hv
  simp only [List.concat_eq_append] at h ⊢
  rw [joinPairCode_concat] at h
  by_cases hcond : p = q ∧ a ≠ b
  · rw [if_pos hcond] at h
    obtain ⟨rfl, hab⟩ := hcond
    obtain rfl : p ++ [min a b, max a b] = c := Option.some.inj h
    rcases lt_or_gt_of_ne hab with hlt | hgt
    · refine ⟨p, a, b, hlt, ?_, Or.inl ⟨rfl, rfl⟩⟩
      rw [min_eq_left (le_of_lt hlt), max_eq_right (le_of_lt hlt)]
    · refine ⟨p, b, a, hgt, ?_, Or.inr ⟨rfl, rfl⟩⟩
      rw [min_eq_right (le_of_lt hgt), max_eq_left (le_of_lt hgt)]
  · rw [if_neg hcond] at h
    cases h

theorem joinPair_of_split (p : List Int) (a b : Int) (hab : a < b) :
    joinPairCode (p ++ [a], p ++ [b]) = some (p ++ [a, b]) ∧
      joinPairCode (p ++ [b], p ++ [a]) = some (p ++ [a, b]) := by
  constructor
  · rw [joinPairCode_concat, if_pos ⟨rfl, ne_of_lt hab⟩,
      min_eq_left (le_of_lt hab), max_eq_right (le_of_lt hab)]
  · rw [joinPairCode_concat, if_pos ⟨rfl, ne_of_gt hab⟩,
      min_eq_right (le_of_lt hab), max_eq_left (le_of_lt hab)]

theorem sorted_concat_iff (p : List Int) (a : Int) :
    (p ++ [a]).Pairwise (· < ·) ↔ p.Pairwise (· < ·) ∧ ∀ x ∈ p, x < a := by
  rw [List.pairwise_append]
  constructor
  · rintro ⟨h1, _, h3⟩
    exact ⟨h1, fun x hx => h3 x hx a (List.mem_singleton_self a)⟩
  · rintro ⟨h1, h2⟩
    refine ⟨h1, List.pairwise_singleton _ _, ?_⟩
    intro x hx y hy
    rw [List.mem_singleton] at hy
    subst hy
    exact h2 x hx

theorem join_sorted_of (u v c : List Int) (hu : u ≠ []) (hv : v ≠ [])
    (hus : u.Pairwise (· < ·)) (hvs : v.Pairwise (· < ·))
    (h : joinPairCode (u, v) = some c) : c.Pairwise (· < ·) := by
  obtain ⟨p, m, M, hmM, rfl, hor⟩ := joinPair_cases u v c hu hv h
  have hpm : p.Pairwise (· < ·) ∧ ∀ x ∈ p, x < m := by
    rcases hor with ⟨h1, h2⟩ | ⟨h1, h2⟩
    · rw [h1] at hus; exact (sorted_concat_iff p m).mp hus
    · rw [h2] at hvs; exact (sorted_concat_iff p m).mp hvs
  have hpM : ∀ x ∈ p, x < M := fun x hx => lt_trans (hpm.2 x hx) hmM
  rw [List.pairwise_append]
  refine ⟨hpm.1, ?_, ?_⟩
  · exact List.pairwise_cons.mpr
      ⟨fun y hy => by rw [List.mem_singleton] at hy; subst hy; exact hmM,
        List.pairwise_singleton _ _⟩
  · intro x hx y hy
    rcases List.mem_cons.mp hy with rfl | hy1
    · exact hpm.2 x hx
    · rw [List.mem_singleton] at hy1
      subst hy1
      exact hpM x hx

theorem join_length_of (u v c : List Int) (hu : u ≠ []) (hv : v ≠ [])
    (h : joinPairCode (u, v) = some c) : c.length = u.length + 1 := by
  obtain ⟨p, m, M, _, rfl, hor⟩ := joinPair_cases u v c hu hv h
  rcases hor with ⟨h1, _⟩ | ⟨h1, _⟩ <;> rw [h1] <;> simp

theorem nodup_filterMap_of_inj {α β : Type} (f : α → Option β) (l : List α)
    (hl : l.Nodup)
    (hinj : ∀ p ∈ l, ∀ q ∈ l, ∀ b, f p = some b → f q = some b → p = q) :
    (l.filterMap f).Nodup := by
  induction l with
  | nil => exact List.nodup_nil
  | cons x xs ih =>
    rw [List.nodup_cons] at hl
    rw [List.filterMap_cons]
    have hinj2 : ∀ p ∈ xs, ∀ q ∈ xs, ∀ b, f p = some b → f q = some b → p = q :=
      fun p hp q hq b h1 h2 =>
        hinj p (List.mem_cons_of_mem _ hp) q (List.mem_cons_of_mem _ hq) b h1 h2
    cases hfx : f x with
    | none => exact ih hl.2 hinj2
    | some b =>
      refine List.nodup_cons.mpr ⟨?_, ih hl.2 hinj2⟩
      intro hbin
      obtain ⟨q, hq, hfq⟩ := List.mem_filterMap.mp hbin
      have hxq : x = q :=
        hinj x (List.mem_cons_self _ _) q (List.mem_cons_of_mem _ hq) b hfx hfq
      exact hl.1 (hxq ▸ hq)

theorem joinPairCode_inj (F : List (List Int)) (hnd : F.Nodup)
    (hne : ∀ x ∈ F, x ≠ []) :
    ∀ p ∈ combinations2 F, ∀ q ∈ combinations2 F, ∀ c,
      joinPairCode p = some c → joinPairCode q = some c → p = q := by
  rintro ⟨u1, v1⟩ hp ⟨u2, v2⟩ hq c h1 h2
  have hm1 := mem_of_mem_combinations2 F (u1, v1) hp
  have hm2 := mem_of_mem_combinations2 F (u2, v2) hq
  obtain ⟨p1, m1, M1, hlt1, hc1, hor1⟩ :=
    joinPair_cases u1 v1 c (hne u1 hm1.1) (hne v1 hm1.2) h1
  obtain ⟨p2, m2, M2, hlt2, hc2, hor2⟩ :=
    joinPair_cases u2 v2 c (hne u2 hm2.1) (hne v2 hm2.2) h2
  have hlen : p1.length = p2.length := by
    have : (p1 ++ [m1, M1]).length = (p2 ++ [m2, M2]).length := by rw [← hc1, ← hc2]
    simpa using this
  obtain ⟨rfl, htail⟩ := List.append_inj (hc1 ▸ hc2 : p1 ++ [m1, M1] = p2 ++ [m2, M2]) hlen
  have hm12 : m1 = m2 := by
    have := congrArg (fun l => List.headI l) htail
    simpa using this
  have hM12 : M1 = M2 := by
    have := congrArg (fun l => List.headI (List.tail l)) htail
    simpa using this
  subst hm12; subst hM12
  rcases hor1 with ⟨hu1, hv1⟩ | ⟨hu1, hv1⟩ <;>
    rcases hor2 with ⟨hu2, hv2⟩ | ⟨hu2, hv2⟩
  · rw [hu1, hv1, hu2, hv2]
  · exfalso
    have hswap : (u2, v2) = (v1, u1) := by rw [hu2, hv2, hu1, hv1]
    rw [hswap] at hq
    exact combinations2_asymm F hnd u1 v1 hp hq
  · exfalso
    have hswap : (u2, v2) = (v1, u1) := by rw [hu2, hv2, hu1, hv1]
    rw [hswap] at hq
    exact combinations2_asymm F hnd u1 v1 hp hq
  · rw [hu1, hv1, hu2, hv2]

theorem joinStep_nodup (F : List (List Int)) (hnd : F.Nodup)
    (hne : ∀ x ∈ F, x ≠ []) : (joinStep F).Nodup := by
  rw [joinStep_eq_filterMap]
  exact nodup_filterMap_of_inj joinPairCode (combinations2 F)
    (combinations2_nodup F hnd) (joinPairCode_inj F hnd hne)

theorem candidate_gen_nodup (F : List (List Int)) (hnd : F.Nodup)
    (hne : ∀ x ∈ F, x ≠ []) : (candidate_gen F).Nodup :=
  (joinStep_nodup F hnd hne).sublist (candidate_gen_sublist_join F)

/-! ### Level invariants and membership characterisation -/

theorem flevel_succ_def (lines : List (List Int)) (ms : ℚ) (k : Nat) :
    flevel lines ms (k + 1) =
      levelFilter lines.length ms
        (countSupport (candidate_gen (flevel lines ms k)) lines) := rfl

theorem flevel_inv (lines : List (List Int)) (ms : ℚ) :
    ∀ k : Nat, (flevel lines ms k).Nodup ∧
      ∀ x ∈ flevel lines ms k, x.Pairwise (· < ·) ∧ x.length = k + 1 := by
  intro k
  induction k with
  | zero =>
    refine ⟨init_pass_nodup lines ms, ?_⟩
    intro x hx
    obtain ⟨i, rfl, _, _⟩ := (mem_init_pass lines ms x).mp hx
    exact ⟨List.pairwise_singleton _ _, rfl⟩
  | succ k ih =>
    obtain ⟨hnd, hmem⟩ := ih
    have hne : ∀ x ∈ flevel lines ms k, x ≠ [] := by
      intro x hx hnil
      have := (hmem x hx).2
      rw [hnil] at this
      simp at this
    have hCnd : (candidate_gen (flevel lines ms k)).Nodup :=
      candidate_gen_nodup _ hnd hne
    constructor
    · rw [flevel_succ_def]
      exact levelFilter_nodup _ _ _ (counterWF_countSupport _ lines).1
    · intro x hx
      rw [flevel_succ_def] at hx
      have hxC : x ∈ candidate_gen (flevel lines ms k) := by
        obtain ⟨v, hv, _⟩ := (mem_levelFilter _ _ _ x).mp hx
        have hlk := lookupCnt_eq_of_mem _ (counterWF_countSupport _ lines) x v hv
        have hpos := pos_of_mem _ (counterWF_countSupport _ lines) x v hv
        rw [lookupCnt_countSupport _ lines hCnd x] at hlk
        by_cases hxc : x ∈ candidate_gen (flevel lines ms k)
        · exact hxc
        · rw [if_neg hxc] at hlk
          omega
      have hxJ : x ∈ joinStep (flevel lines ms k) :=
        (candidate_gen_sublist_join _).subset hxC
      obtain ⟨⟨u, v⟩, hpair, hcode⟩ := mem_joinStep_struct _ x hxJ
      have humem := (mem_of_mem_combinations2 _ _ hpair).1
      have hvmem := (mem_of_mem_combinations2 _ _ hpair).2
      refine ⟨join_sorted_of u v x (hne u humem) (hne v hvmem)
        (hmem u humem).1 (hmem v hvmem).1 hcode, ?_⟩
      rw [join_length_of u v x (hne u humem) (hne v hvmem) hcode, (hmem u humem).2]

theorem mem_flevel_succ (lines : List (List Int)) (ms : ℚ) (k : Nat) (x : List Int) :
    x ∈ flevel lines ms (k + 1) ↔
      x ∈ candidate_gen (flevel lines ms k) ∧ 1 ≤ supportCount x lines ∧
        (supportCount x lines : ℚ) / (lines.length : ℚ) > ms := by
  obtain ⟨hnd, hmem⟩ := flevel_inv lines ms k
  have hne : ∀ y ∈ flevel lines ms k, y ≠ [] := by
    intro y hy hnil
    have := (hmem y hy).2
    rw [hnil] at this
    simp at this
  have hCnd : (candidate_gen (flevel lines ms k)).Nodup :=
    candidate_gen_nodup _ hnd hne
  rw [flevel_succ_def, mem_levelFilter]
  constructor
  · rintro ⟨v, hv, hcond⟩
    have hlk := lookupCnt_eq_of_mem _ (counterWF_countSupport _ lines) x v hv
    have hpos := pos_of_mem _ (counterWF_countSupport _ lines) x v hv
    rw [lookupCnt_countSupport _ lines hCnd x] at hlk
    by_cases hxc : x ∈ candidate_gen (flevel lines ms k)
    · rw [if_pos hxc] at hlk
      rw [hlk]
      exact ⟨hxc, hpos, hcond⟩
    · rw [if_neg hxc] at hlk
      omega
  · rintro ⟨hxc, hpos, hcond⟩
    have hlk : lookupCnt (countSupport (candidate_gen (flevel lines ms k)) lines) x =
        supportCount x lines := by
      rw [lookupCnt_countSupport _ lines hCnd x, if_pos hxc]
    refine ⟨supportCount x lines, ?_, hcond⟩
    have := mem_of_lookupCnt_pos (countSupport (candidate_gen (flevel lines ms k)) lines) x
      (by rw [hlk]; exact hpos)
    rw [hlk] at this
    exact this

theorem supportCount_singleton (i : Int) (lines : List (List Int)) :
    supportCount [i] lines = itemCount i lines := by
  unfold supportCount itemCount
  congr 1
  funext t
  simp [subOf]

theorem mem_flevel_zero (lines : List (List Int)) (ms : ℚ) (x : List Int) :
    x ∈ flevel lines ms 0 ↔
      ∃ i, x = [i] ∧ 1 ≤ supportCount [i] lines ∧
        (supportCount [i] lines : ℚ) / (lines.length : ℚ) > ms := by
  have h0 : flevel lines ms 0 = (init_pass lines ms).1 := rfl
  rw [h0, mem_init_pass]
  constructor
  · rintro ⟨i, rfl, h1, h2⟩
    exact ⟨i, rfl, by rw [supportCount_singleton]; exact h1,
      by rw [supportCount_singleton]; exact h2⟩
  · rintro ⟨i, rfl, h1, h2⟩
    exact ⟨i, rfl, by rw [supportCount_singleton] at h1; exact h1,
      by rw [supportCount_singleton] at h2; exact h2⟩

/-! ### Support monotonicity and completeness of the levels -/

theorem countP_mono_of_imp {α : Type} (p q : α → Bool)
    (h : ∀ a, p a = true → q a = true) :
    ∀ l : List α, l.countP p ≤ l.countP q := by
  intro l
  induction l with
  | nil => simp
  | cons a t ih =>
    rw [List.countP_cons, List.countP_cons]
    by_cases hp : p a
    · rw [if_pos hp, if_pos (h a hp)]
      omega
    · rw [if_neg hp]
      by_cases hq : q a
      · rw [if_pos hq]; omega
      · rw [if_neg hq]; omega

theorem supportCount_le_of_subset (c s : List Int) (hsub : ∀ x ∈ s, x ∈ c)
    (lines : List (List Int)) : supportCount c lines ≤ supportCount s lines := by
  unfold supportCount
  refine countP_mono_of_imp _ _ ?_ _
  intro t ht
  rw [subOf, List.all_eq_true] at ht ⊢
  intro x hx
  exact ht x (hsub x hx)

theorem div_cast_mono (a b n : Nat) (h : a ≤ b) :
    (a : ℚ) / (n : ℚ) ≤ (b : ℚ) / (n : ℚ) := by
  rcases Nat.eq_zero_or_pos n with rfl | hn
  · simp
  · have hc : (0 : ℚ) < (n : ℚ) := by exact_mod_cast hn
    exact (div_le_div_iff_of_pos_right hc).mpr (by exact_mod_cast h)

/-- Completeness of the level sequence: every strictly increasing itemset
of the right length whose support ratio strictly exceeds `minsup` (and
which occurs at least once) is a member of its level.  The pruning bug of
`candidate_gen` only ever under-removes, so this direction is intact. -/
theorem flevel_complete (lines : List (List Int)) (ms : ℚ) :
    ∀ (k : Nat) (s : List Int), s.Pairwise (· < ·) → s.length = k + 1 →
      1 ≤ supportCount s lines →
      (supportCount s lines : ℚ) / (lines.length : ℚ) > ms →
      s ∈ flevel lines ms k := by
  intro k
  induction k with
  | zero =>
    intro s hsort hlen hpos hcond
    match s, hlen with
    | [i], _ =>
      rw [mem_flevel_zero]
      exact ⟨i, rfl, hpos, hcond⟩
  | succ k ih =>
    intro s hsort hlen hpos hcond
    have hs2 : s ≠ [] := by intro h; rw [h] at hlen; simp at hlen
    obtain ⟨s1, b, rfl⟩ := (List.eq_nil_or_concat s).resolve_left hs2
    rw [List.concat_eq_append] at hsort hlen hpos hcond ⊢
    have hs1 : s1 ≠ [] := by
      intro h
      rw [h] at hlen
      simp at hlen
    obtain ⟨p, a, rfl⟩ := (List.eq_nil_or_concat s1).resolve_left hs1
    rw [List.concat_eq_append] at hsort hlen hpos hcond ⊢
    rw [List.append_assoc] at hsort hlen hpos hcond ⊢
    simp only [List.singleton_append] at hsort hlen hpos hcond ⊢
    have hplen : p.length = k := by simpa using hlen
    have hab : a < b := by
      rw [List.pairwise_append] at hsort
      have := hsort.2.1
      rw [List.pairwise_cons] at this
      exact this.1 b (List.mem_singleton_self b)
    have huSub : List.Sublist (p ++ [a]) (p ++ [a, b]) := by
      have : List.Sublist [a] [a, b] := by
        refine List.Sublist.cons₂ a ?_
        exact List.nil_sublist [b]
      exact this.append_left p
    have hvSub : List.Sublist (p ++ [b]) (p ++ [a, b]) := by
      have : List.Sublist [b] [a, b] := List.sublist_cons_self a [b]
      exact this.append_left p
    have huSort : (p ++ [a]).Pairwise (· < ·) := hsort.sublist huSub
    have hvSort : (p ++ [b]).Pairwise (· < ·) := hsort.sublist hvSub
    have huCnt : supportCount (p ++ [a, b]) lines ≤ supportCount (p ++ [a]) lines :=
      supportCount_le_of_subset _ _ (fun x hx => huSub.subset hx) lines
    have hvCnt : supportCount (p ++ [a, b]) lines ≤ supportCount (p ++ [b]) lines :=
      supportCount_le_of_subset _ _ (fun x hx => hvSub.subset hx) lines
    have huMem : (p ++ [a]) ∈ flevel lines ms k :=
      ih (p ++ [a]) huSort (by simp [hplen]) (le_trans hpos huCnt)
        (lt_of_lt_of_le hcond (div_cast_mono _ _ _ huCnt))
    have hvMem : (p ++ [b]) ∈ flevel lines ms k :=
      ih (p ++ [b]) hvSort (by simp [hplen]) (le_trans hpos hvCnt)
        (lt_of_lt_of_le hcond (div_cast_mono _ _ _ hvCnt))
    have huv : (p ++ [a] : List Int) ≠ (p ++ [b]) := by
      intro h
      have := List.append_inj h rfl
      have hab2 : a = b := by simpa using this.2
      exact (ne_of_lt hab) hab2
    have hjoin : (p ++ [a, b]) ∈ joinStep (flevel lines ms k) := by
      rcases combinations2_total (flevel lines ms k) _ _ huMem hvMem huv with hc | hc
      · exact joinStep_mem_of_pair _ _ _ hc (joinPair_of_split p a b hab).1
      · exact joinStep_mem_of_pair _ _ _ hc (joinPair_of_split p a b hab).2
    have hgood : badCand (flevel lines ms k) (p ++ [a, b]) = false := by
      rw [badCand, List.any_eq_false]
      intro sub hsub
      obtain ⟨hsubl, hsublen⟩ := sublist_of_mem_deleteOnes _ sub hsub
      have hsubSort : sub.Pairwise (· < ·) := hsort.sublist hsubl
      have hsubLen : sub.length = k + 1 := by
        have : (p ++ [a, b]).length = k + 2 := by simp [hplen]
        omega
      have hsubCnt : supportCount (p ++ [a, b]) lines ≤ supportCount sub lines :=
        supportCount_le_of_subset _ _ (fun x hx => hsubl.subset hx) lines
      have hsubMem : sub ∈ flevel lines ms k :=
        ih sub hsubSort hsubLen (le_trans hpos hsubCnt)
          (lt_of_lt_of_le hcond (div_cast_mono _ _ _ hsubCnt))
      simp only [subMissing, decide_eq_true_eq]
      intro hcon
      exact hcon.2 hsubMem
    exact (mem_flevel_succ lines ms k _).mpr
      ⟨candidate_gen_keeps _ _ hjoin hgood, hpos, hcond⟩

/-- Downward closure of consecutive levels, despite the pruning skip:
every delete-one subset of a member of level `k+1` is a member of level
`k`, because support is monotone under subsets and the level sequence is
complete for frequent sorted itemsets. -/
theorem flevel_downward (lines : List (List Int)) (ms : ℚ) (k : Nat)
    (x : List Int) (hx : x ∈ flevel lines ms (k + 1)) :
    ∀ s ∈ deleteOnes x, s ∈ flevel lines ms k := by
  intro s hs
  obtain ⟨hxC, hxPos, hxCond⟩ := (mem_flevel_succ lines ms k x).mp hx
  obtain ⟨_, hmem⟩ := flevel_inv lines ms (k + 1)
  have hxSort : x.Pairwise (· < ·) := (hmem x hx).1
  have hxLen : x.length = k + 2 := (hmem x hx).2
  obtain ⟨hsubl, hsublen⟩ := sublist_of_mem_deleteOnes x s hs
  have hsCnt : supportCount x lines ≤ supportCount s lines :=
    supportCount_le_of_subset _ _ (fun y hy => hsubl.subset hy) lines
  exact flevel_complete lines ms k s (hxSort.sublist hsubl) (by omega)
    (le_trans hxPos hsCnt) (lt_of_lt_of_le hxCond (div_cast_mono _ _ _ hsCnt))

/-! ### Spec-side formulation of the join step (for the refinement claim) -/

/-- The specification wording of the join-step output for one pair: the
shared prefix followed by the two differing last items in increasing
order.  Stated from the spec text, to be compared with `joinPairCode`. -/
def joinPairSpec (s1 s2 : List Int) : Option (List Int) :=
  if s1.dropLast = s2.dropLast ∧ s1.getLastD 0 ≠ s2.getLastD 0 then
    some (s1.dropLast ++
      [min (s1.getLastD 0) (s2.getLastD 0), max (s1.getLastD 0) (s2.getLastD 0)])
  else none

theorem joinPairSpec_concat (p q : List Int) (a b : Int) :
    joinPairSpec (p ++ [a]) (q ++ [b]) =
      if p = q ∧ a ≠ b then some (p ++ [min a b, max a b]) else none := by
  unfold joinPairSpec
  rw [List.dropLast_concat, List.dropLast_concat, List.getLastD_concat,
    List.getLastD_concat]

theorem joinPairCode_eq_spec (u v : List Int) (hu : u ≠ []) (hv : v ≠ []) :
    joinPairCode (u, v) = joinPairSpec u v := by
  obtain ⟨p, a, rfl⟩ := (List.eq_nil_or_concat u).resolve_left hu
  obtain ⟨q, b, rfl⟩ := (List.eq_nil_or_concat v).resolve_left hv
  simp only [List.concat_eq_append]
  rw [joinPairCode_concat, joinPairSpec_concat]

theorem filterMap_congr_mem {α β : Type} (f g : α → Option β) :
    ∀ l : List α, (∀ p ∈ l, f p = g p) → l.filterMap f = l.filterMap g := by
  intro l
  induction l with
  | nil => intro _; rfl
  | cons x xs ih =>
    intro h
    rw [List.filterMap_cons, List.filterMap_cons, h x (List.mem_cons_self _ _),
      ih (fun p hp => h p (List.mem_cons_of_mem _ hp))]

/-! ### Emptiness and no-validation lemmas for `apriori` -/

theorem aprioriGo_empty_prev (lines : List (List Int)) (n : Nat) (ms : ℚ) :
    ∀ (fuel : Nat) (acc : List (List Int)), aprioriGo lines n ms fuel acc [] = acc := by
  intro fuel acc
  cases fuel with
  | zero => rfl
  | succ fuel => rw [aprioriGo, if_pos rfl]

theorem itemCount_le_length (i : Int) (lines : List (List Int)) :
    itemCount i lines ≤ lines.length := by
  unfold itemCount
  calc (lines.map parseLine).countP (fun t => decide (i ∈ t)) ≤
      (lines.map parseLine).length := List.countP_le_length _
    _ = lines.length := List.length_map _ _

theorem init_pass_empty_of_gt_one (lines : List (List Int)) (ms : ℚ) (hms : 1 < ms) :
    (init_pass lines ms).1 = [] := by
  rw [List.eq_nil_iff_forall_not_mem]
  intro x hx
  obtain ⟨i, rfl, hpos, hcond⟩ := (mem_init_pass lines ms x).mp hx
  have hle : (itemCount i lines : ℚ) / (lines.length : ℚ) ≤ 1 := by
    rcases Nat.eq_zero_or_pos lines.length with hz | hp
    · rw [hz]
      simp
    · have hnum : (itemCount i lines : ℚ) ≤ (lines.length : ℚ) := by
        exact_mod_cast itemCount_le_length i lines
      have hden : (0 : ℚ) < (lines.length : ℚ) := by exact_mod_cast hp
      rw [div_le_one hden]
      exact hnum
  exact absurd hcond (not_lt.mpr (le_trans hle (le_of_lt hms)))

theorem apriori_empty_of_gt_one (lines : List (List Int)) (ms : ℚ) (ni : Bool)
    (hms : 1 < ms) : apriori lines ms ni = [] := by
  unfold apriori
  rw [init_pass_empty_of_gt_one lines ms hms]
  exact aprioriGo_empty_prev lines _ ms _ []

/-! ### The transaction index column never influences the result -/

theorem itemCounts_parsed (lines : List (List Int)) :
    itemCounts lines =
      (lines.map parseLine).foldl (fun m t => t.foldl bump m) [] := by
  rw [itemCounts, List.foldl_map]

theorem countSupport_parsed (C lines : List (List Int)) :
    countSupport C lines =
      (lines.map parseLine).foldl
        (fun m t => C.foldl (fun m2 c => if subOf c t then bump m2 c else m2) m) [] := by
  rw [countSupport, List.foldl_map]

theorem length_eq_of_parse_eq (lines lines2 : List (List Int))
    (h : lines.map parseLine = lines2.map parseLine) : lines.length = lines2.length := by
  have := congrArg List.length h
  simpa using this

theorem init_pass_parse_congr (lines lines2 : List (List Int)) (ms : ℚ)
    (h : lines.map parseLine = lines2.map parseLine) :
    init_pass lines ms = init_pass lines2 ms := by
  have hlen : lines.length = lines2.length := length_eq_of_parse_eq _ _ h
  unfold init_pass
  rw [itemCounts_parsed, itemCounts_parsed, h, hlen]

theorem aprioriStep_parse_congr (F : List (List Int)) (lines lines2 : List (List Int))
    (n : Nat) (ms : ℚ) (h : lines.map parseLine = lines2.map parseLine) :
    aprioriStep F lines n ms = aprioriStep F lines2 n ms := by
  unfold aprioriStep
  rw [countSupport_parsed, countSupport_parsed, h]

theorem aprioriGo_parse_congr (lines lines2 : List (List Int)) (n : Nat) (ms : ℚ)
    (h : lines.map parseLine = lines2.map parseLine) :
    ∀ (fuel : Nat) (acc F : List (List Int)),
      aprioriGo lines n ms fuel acc F = aprioriGo lines2 n ms fuel acc F := by
  intro fuel
  induction fuel with
  | zero => intro acc F; rfl
  | succ fuel ih =>
    intro acc F
    by_cases hF : F = []
    · rw [aprioriGo, aprioriGo, if_pos hF, if_pos hF]
    · rw [aprioriGo, aprioriGo, if_neg hF, if_neg hF,
        aprioriStep_parse_congr F lines lines2 n ms h, ih]

theorem apriori_parse_congr (lines lines2 : List (List Int)) (ms : ℚ) (ni : Bool)
    (h : lines.map parseLine = lines2.map parseLine) :
    apriori lines ms ni = apriori lines2 ms ni := by
  unfold apriori aprioriFuel
  rw [init_pass_parse_congr lines lines2 ms h, h]
  exact aprioriGo_parse_congr lines lines2 _ ms h _ _ _

/-! ### Fidelity of the fuelled level loop

The `while` loop of `apriori` is modelled with the fuel bound
`aprioriFuel`.  The theorems of this section justify the bound exactly:
the loop output is the concatenation of the level sequence, and every
level at or beyond `aprioriFuel lines - 2` is empty (each member of level
`k` is a duplicate-free list of `k + 1` distinct items drawn from the
parsed transactions), so the fuelled loop and the unbounded loop agree. -/

theorem countSupport_nil (lines : List (List Int)) :
    countSupport [] lines = [] := by
  unfold countSupport
  induction lines with
  | nil => rfl
  | cons line rest ih => simpa using ih

theorem aprioriStep_nil (lines : List (List Int)) (n : Nat) (ms : ℚ) :
    aprioriStep [] lines n ms = [] := by
  unfold aprioriStep
  have hcg : candidate_gen [] = [] := rfl
  rw [hcg, countSupport_nil]
  rfl

theorem flevel_empty_succ (lines : List (List Int)) (ms : ℚ) (k : Nat)
    (h : flevel lines ms k = []) : flevel lines ms (k + 1) = [] := by
  have : flevel lines ms (k + 1) = aprioriStep (flevel lines ms k) lines lines.length ms :=
    rfl
  rw [this, h, aprioriStep_nil]

theorem flevel_empty_mono (lines : List (List Int)) (ms : ℚ) (k : Nat)
    (h : flevel lines ms k = []) : ∀ j, flevel lines ms (k + j) = [] := by
  intro j
  induction j with
  | zero => exact h
  | succ j ih => exact flevel_empty_succ lines ms (k + j) ih

theorem aprioriGo_levels (lines : List (List Int)) (ms : ℚ) :
    ∀ (fuel k : Nat) (acc : List (List Int)),
      aprioriGo lines lines.length ms fuel acc (flevel lines ms k) =
        acc ++ ((List.range fuel).map fun j => flevel lines ms (k + j + 1)).flatten := by
  intro fuel
  induction fuel with
  | zero => intro k acc; simp [aprioriGo]
  | succ fuel ih =>
    intro k acc
    by_cases hF : flevel lines ms k = []
    · rw [hF, aprioriGo_empty_prev]
      have hall : ((List.range (fuel + 1)).map fun j => flevel lines ms (k + j + 1)).flatten
          = [] := by
        rw [List.flatten_eq_nil_iff]
        intro l hl
        obtain ⟨j, _, rfl⟩ := List.mem_map.mp hl
        have := flevel_empty_mono lines ms k hF (j + 1)
        simpa [Nat.add_assoc] using this
      rw [hall, List.append_nil]
    · rw [aprioriGo, if_neg hF]
      have hstep : aprioriStep (flevel lines ms k) lines lines.length ms =
          flevel lines ms (k + 1) := rfl
      rw [hstep, ih (k + 1) (acc ++ flevel lines ms (k + 1))]
      rw [List.range_succ_eq_map, List.map_cons, List.map_map, List.flatten_cons]
      have hidx : ((List.range fuel).map fun j => flevel lines ms (k + 1 + j + 1)) =
          (List.range fuel).map ((fun j => flevel lines ms (k + j + 1)) ∘ Nat.succ) := by
        refine List.map_congr_left ?_
        intro j _
        have : k + 1 + j + 1 = k + (j + 1) + 1 := by omega
        simp [Function.comp, this]
      rw [List.append_assoc]
      rw [show k + 0 + 1 = k + 1 from by omega]
      rw [hidx]

/-- The output of the miner is the initial level followed by the concatenation
of all later levels produced by the loop body, in level order. -/
theorem apriori_eq_levels (lines : List (List Int)) (ms : ℚ) (ni : Bool) :
    apriori lines ms ni =
      flevel lines ms 0 ++
        ((List.range (aprioriFuel lines)).map fun j => flevel lines ms (j + 1)).flatten := by
  unfold apriori
  have h0 : (init_pass lines ms).1 = flevel lines ms 0 := rfl
  have hn : (init_pass lines ms).2 = lines.length := rfl
  rw [h0, hn, aprioriGo_levels lines ms (aprioriFuel lines) 0 (flevel lines ms 0)]
  have hidx : ((List.range (aprioriFuel lines)).map fun j => flevel lines ms (0 + j + 1)) =
      (List.range (aprioriFuel lines)).map fun j => flevel lines ms (j + 1) := by
    refine List.map_congr_left ?_
    intro j _
    rw [show 0 + j + 1 = j + 1 from by omega]
  rw [hidx]

theorem foldr_append_eq_flatten (L : List (List Int)) :
    L.foldr (· ++ ·) [] = L.flatten := by
  induction L with
  | nil => rfl
  | cons l rest ih => simp [ih]

theorem flevel_subset_items (lines : List (List Int)) (ms : ℚ) :
    ∀ (k : Nat) (x : List Int), x ∈ flevel lines ms k →
      ∀ i ∈ x, i ∈ (lines.map parseLine).flatten := by
  intro k x hx i hi
  have hcnt : 1 ≤ supportCount x lines := by
    cases k with
    | zero =>
      obtain ⟨j, rfl, h1, _⟩ := (mem_flevel_zero lines ms x).mp hx
      exact h1
    | succ k => exact ((mem_flevel_succ lines ms k x).mp hx).2.1
  have hex : ∃ t ∈ lines.map parseLine, subOf x t := by
    have := List.countP_pos_iff.mp (by omega : 0 < supportCount x lines)
    simpa [supportCount] using this
  obtain ⟨t, ht, hsub⟩ := hex
  rw [subOf, List.all_eq_true] at hsub
  exact List.mem_flatten.mpr ⟨t, ht, of_decide_eq_true (hsub i hi)⟩

/-- Every level at or beyond the number of distinct parsed items is empty:
its members would be duplicate-free lists of more items than exist. -/
theorem flevel_empty_of_big (lines : List (List Int)) (ms : ℚ) (k : Nat)
    (hk : ((lines.map parseLine).flatten).dedup.length ≤ k) :
    flevel lines ms k = [] := by
  rw [List.eq_nil_iff_forall_not_mem]
  intro x hx
  obtain ⟨_, hmem⟩ := flevel_inv lines ms k
  have hsort : x.Pairwise (· < ·) := (hmem x hx).1
  have hlen : x.length = k + 1 := (hmem x hx).2
  have hnd : x.Nodup := hsort.imp (fun hab => ne_of_lt hab)
  have hsubset : x ⊆ ((lines.map parseLine).flatten).dedup := by
    intro i hi
    exact List.mem_dedup.mpr (flevel_subset_items lines ms k x hx i hi)
  have hle : x.length ≤ ((lines.map parseLine).flatten).dedup.length :=
    (hnd.subperm hsubset).length_le
  omega

/-- The fuel bound of the model is exact: adding any extra fuel to the
level loop does not change the result, so the fuelled loop agrees with the
unbounded `while` loop of the source. -/
theorem apriori_fuel_exact (lines : List (List Int)) (ms : ℚ) (ni : Bool)
    (extra : Nat) :
    aprioriGo lines lines.length ms (aprioriFuel lines + extra)
        (init_pass lines ms).1 (init_pass lines ms).1 =
      apriori lines ms ni := by
  unfold apriori
  have h0 : (init_pass lines ms).1 = flevel lines ms 0 := rfl
  have hn : (init_pass lines ms).2 = lines.length := rfl
  rw [h0, hn, aprioriGo_levels lines ms (aprioriFuel lines + extra) 0 (flevel lines ms 0),
    aprioriGo_levels lines ms (aprioriFuel lines) 0 (flevel lines ms 0)]
  congr 1
  have hsplit : List.range (aprioriFuel lines + extra) =
      List.range (aprioriFuel lines) ++
        (List.range extra).map (fun j => aprioriFuel lines + j) := by
    rw [List.range_add]
  rw [hsplit, List.map_append, List.flatten_append]
  have htail : (((List.range extra).map fun j => aprioriFuel lines + j).map
      fun j => flevel lines ms (0 + j + 1)).flatten = [] := by
    rw [List.flatten_eq_nil_iff]
    intro l hl
    obtain ⟨j, hj, rfl⟩ := List.mem_map.mp (by
      rw [List.map_map] at hl
      exact hl)
    refine flevel_empty_of_big lines ms _ ?_
    have hM : ((lines.map parseLine).flatten).dedup.length + 2 = aprioriFuel lines := by
      unfold aprioriFuel
      rw [foldr_append_eq_flatten]
    have hbeta : (fun j => aprioriFuel lines + j) j = aprioriFuel lines + j := rfl
    rw [hbeta]
    omega
  rw [htail, List.append_nil]

/-! ## Claim theorems -/

/-- Claim C2, code evaluation at the failing input: on the frequent-pair
list [[1,2],[1,3],[1,4]] the prune loop removes [1,2,3], the iterator then
skips [1,2,4] (which slid into the removed position), removes [1,3,4], and
`candidate_gen` returns [[1,2,4]] even though the delete-one subset [2,4]
of [1,2,4] is absent from the input level — contradicting the claim (and
the docstring) that every candidate with a missing (k-1)-subset is
discarded. -/
theorem c2_prune_skips_candidate :
    candidate_gen [[1,2],[1,3],[1,4]] = [[1,2,4]] ∧
      [2,4] ∈ deleteOnes [1,2,4] ∧
      [2,4] ∉ ([[1,2],[1,3],[1,4]] : List (List Int)) :=
  ⟨by decide, by decide, by decide⟩

/-- Claim C4: at every level of the miner, including the initial singleton
pass (level 0 here), a strictly increasing itemset with the length of that level is
kept as frequent iff its support count divided by n strictly exceeds
minsup; a ratio exactly equal to minsup is excluded, a larger one is
included. -/
theorem c4_strict_threshold (lines : List (List Int)) (ms : ℚ) (k : Nat)
    (x : List Int) (hms : 0 < ms) (hsort : x.Pairwise (· < ·))
    (hlen : x.length = k + 1) :
    x ∈ flevel lines ms k ↔
      (supportCount x lines : ℚ) / (lines.length : ℚ) > ms := by
  constructor
  · intro hx
    cases k with
    | zero =>
      obtain ⟨i, rfl, _, h2⟩ := (mem_flevel_zero lines ms x).mp hx
      exact h2
    | succ k => exact ((mem_flevel_succ lines ms k x).mp hx).2.2
  · intro hcond
    have hpos : 1 ≤ supportCount x lines := by
      rcases Nat.eq_zero_or_pos (supportCount x lines) with hz | hp
      · rw [hz] at hcond
        norm_num at hcond
        linarith
      · exact hp
    exact flevel_complete lines ms k x hsort hlen hpos hcond

theorem c4_witness :
    (0 : ℚ) < 1/2 ∧ ([1] : List Int).Pairwise (· < ·) ∧
      ([1] : List Int).length = 0 + 1 ∧
      (([1] : List Int) ∈ flevel [[0,1],[7,1],[7,2]] (1/2) 0 ↔
        (supportCount [1] [[0,1],[7,1],[7,2]] : ℚ) /
          ((List.length [[0,1],[7,1],[7,2]] : Nat) : ℚ) > 1/2) :=
  ⟨by norm_num, by decide, rfl,
    c4_strict_threshold [[0,1],[7,1],[7,2]] (1/2) 0 [1] (by norm_num) (by decide) rfl⟩

/-- Claim C5: downward closure of the level sequence: for every dataset and
minsup, every delete-one subset of a member of level k+1 is a member of
level k.  The prune-loop skip never lets an infrequent itemset through,
because support is monotone under subsets and the level sequence is
complete for frequent sorted itemsets. -/
theorem c5_downward_closure (lines : List (List Int)) (ms : ℚ) (k : Nat)
    (x : List Int) (hx : x ∈ flevel lines ms (k + 1)) :
    ∀ s ∈ deleteOnes x, s ∈ flevel lines ms k :=
  flevel_downward lines ms k x hx

theorem c5_witness :
    ([1,2] : List Int) ∈ flevel [[0,1,2],[9,1,2]] (1/4) 1 ∧
      [1] ∈ deleteOnes [1,2] ∧
      ([1] : List Int) ∈ flevel [[0,1,2],[9,1,2]] (1/4) 0 := by
  have h0 : flevel [[0,1,2],[9,1,2]] (1/4) 0 = [[1],[2]] := by
    show (init_pass [[0,1,2],[9,1,2]] (1/4)).1 = [[1],[2]]
    have hic : itemCounts [[0,1,2],[9,1,2]] = [(1,2),(2,2)] := by decide
    unfold init_pass
    rw [hic]
    norm_num [List.filterMap_cons]
  have h1 : ([1,2] : List Int) ∈ flevel [[0,1,2],[9,1,2]] (1/4) 1 := by
    rw [mem_flevel_succ, h0]
    refine ⟨by decide, by decide, ?_⟩
    show ((2 : Nat) : ℚ) / ((2 : Nat) : ℚ) > 1/4
    norm_num
  exact ⟨h1, by decide, c5_downward_closure [[0,1,2],[9,1,2]] (1/4) 0 [1,2] h1 [1] (by decide)⟩

/-- Claim C6: the join step emits, for each index-ordered pair of itemsets
sharing the k-2 prefix and differing in the last item, exactly the shared
prefix followed by the two last items in increasing order, and nothing for
any other pair; the emitted candidate is strictly increasing whenever the
two inputs are. -/
theorem c6_join_step :
    (∀ F : List (List Int), (∀ s ∈ F, s ≠ []) →
        joinStep F = (combinations2 F).filterMap fun p => joinPairSpec p.1 p.2) ∧
      ∀ (s1 s2 c : List Int), s1 ≠ [] → s2 ≠ [] →
        s1.Pairwise (· < ·) → s2.Pairwise (· < ·) →
        joinPairSpec s1 s2 = some c → c.Pairwise (· < ·) := by
  constructor
  · intro F hne
    rw [joinStep_eq_filterMap]
    refine filterMap_congr_mem _ _ _ ?_
    intro p hp
    obtain ⟨h1, h2⟩ := mem_of_mem_combinations2 F p hp
    exact joinPairCode_eq_spec p.1 p.2 (hne _ h1) (hne _ h2)
  · intro s1 s2 c h1 h2 hs1 hs2 hcode
    rw [← joinPairCode_eq_spec s1 s2 h1 h2] at hcode
    exact join_sorted_of s1 s2 c h1 h2 hs1 hs2 hcode

theorem c6_witness :
    (∀ s ∈ ([[1,2],[1,3]] : List (List Int)), s ≠ []) ∧
      joinStep [[1,2],[1,3]] =
        (combinations2 [[1,2],[1,3]]).filterMap (fun p => joinPairSpec p.1 p.2) ∧
      joinPairSpec [1,2] [1,3] = some [1,2,3] ∧
      ([1,2,3] : List Int).Pairwise (· < ·) :=
  ⟨by decide, c6_join_step.1 [[1,2],[1,3]] (by decide), by decide,
    c6_join_step.2 [1,2] [1,3] [1,2,3] (by decide) (by decide) (by decide) (by decide)
      (by decide)⟩

/-- Claim C7: the per-level counting scan maps each candidate of a
duplicate-free candidate list to exactly the number of transactions whose
item set contains it; candidates contained in no transaction are absent
from the counter rather than stored with value zero; the subset test
depends only on transaction membership; and on the four example
transactions the candidate [1,2] counts 2. -/
theorem c7_support_counting :
    (∀ (C lines : List (List Int)) (c : List Int), C.Nodup →
        lookupCnt (countSupport C lines) c =
          (if c ∈ C then supportCount c lines else 0) ∧
        ((∃ v, (c, v) ∈ countSupport C lines) ↔
          c ∈ C ∧ 1 ≤ supportCount c lines)) ∧
      (∀ c t u : List Int, (∀ x : Int, x ∈ t ↔ x ∈ u) → subOf c t = subOf c u) ∧
      supportCount [1,2] [[10,1,2,3],[11,1,2],[12,2,3],[13,1,3]] = 2 := by
  refine ⟨?_, ?_, by decide⟩
  · intro C lines c hC
    refine ⟨lookupCnt_countSupport C lines hC c, ?_⟩
    rw [exists_mem_iff_lookupCnt_pos _ (counterWF_countSupport C lines) c,
      lookupCnt_countSupport C lines hC c]
    by_cases hmem : c ∈ C
    · rw [if_pos hmem]
      exact ⟨fun h => ⟨hmem, h⟩, fun h => h.2⟩
    · rw [if_neg hmem]
      constructor
      · intro h; omega
      · intro h; exact absurd h.1 hmem
  · intro c t u hiff
    have hiff2 : subOf c t = true ↔ subOf c u = true := by
      rw [subOf, subOf, List.all_eq_true, List.all_eq_true]
      constructor
      · intro h x hx
        exact decide_eq_true ((hiff x).mp (of_decide_eq_true (h x hx)))
      · intro h x hx
        exact decide_eq_true ((hiff x).mpr (of_decide_eq_true (h x hx)))
    cases hst : subOf c t with
    | true => rw [hiff2.mp hst]
    | false =>
      cases hsu : subOf c u with
      | true => exact (Bool.false_ne_true (hst ▸ hiff2.mpr hsu)).elim
      | false => rfl

theorem c7_witness :
    ([[1,2]] : List (List Int)).Nodup ∧
      lookupCnt (countSupport [[1,2]] [[10,1,2,3],[11,1,2],[12,2,3],[13,1,3]]) [1,2] =
        (if [1,2] ∈ ([[1,2]] : List (List Int)) then
          supportCount [1,2] [[10,1,2,3],[11,1,2],[12,2,3],[13,1,3]] else 0) :=
  ⟨by decide,
    (c7_support_counting.1 [[1,2]] [[10,1,2,3],[11,1,2],[12,2,3],[13,1,3]] [1,2]
      (by decide)).1⟩

/-- Claim C1, code evaluation at the failing input: with f_k = [1,2],
H_m = [[1],[2]] and one transaction containing {1,2}, the precondition
holds and the grown consequent set is [[1,2]], but the confidence loop
raises TypeError on its first iteration (the Counter is indexed with an
unhashable set built from the stale scan variable) instead of computing
count(f_k)/count(h) per candidate and emitting by minconf. -/
theorem c1_confidence_loop_faults :
    ap_genRules [1,2] [[1],[2]] 3 (1/2) [[0,1,2]] = Except.error PyErr.typeError := by
  unfold ap_genRules
  have h1 : candidate_gen [[1],[2]] = [[1,2]] := by decide
  rw [h1]
  simp

/-- Claim C3, code evaluation at the failing input: with f_k = [1,2,3],
H_m = [[1],[2]] and one transaction {4,5}, the grown candidate [1,2] has a
tallied antecedent count of zero (its key is absent from the scan
counter), and the confidence loop raises TypeError rather than discarding
the candidate as a recoverable condition. -/
theorem c3_zero_count_faults :
    ap_genRules [1,2,3] [[1],[2]] 1 (1/2) [[0,4,5]] = Except.error PyErr.typeError ∧
      lookupCnt (ruleCounts [1,2,3] [[1,2]] [[0,4,5]]) [1,2] = 0 := by
  constructor
  · unfold ap_genRules
    have h1 : candidate_gen [[1],[2]] = [[1,2]] := by decide
    rw [h1]
    simp
  · decide

/-- Claim C8 counterexample: a mining call with minsup = 2 (outside (0,1])
returns the empty collection normally instead of failing fast with a
configuration error, and a rule call with minconf = 5 proceeds into the
scan-and-filter phase (raising the scan-phase TypeError) rather than
rejecting the threshold. -/
theorem c8_counterexample :
    apriori [[1,5],[2,5]] 2 false = [] ∧
      ap_genRules [1,2] [[1],[2]] 4 5 [[0,1,2]] = Except.error PyErr.typeError := by
  constructor
  · exact apriori_empty_of_gt_one [[1,5],[2,5]] 2 false (by norm_num)
  · unfold ap_genRules
    have h1 : candidate_gen [[1],[2]] = [[1,2]] := by decide
    rw [h1]
    simp

/-- Claim C8 as amended: no threshold validation exists; `apriori` accepts
any minsup and proceeds normally — for every dataset, minsup above 1
yields the empty result collection, with no configuration error raised
anywhere. -/
theorem c8_no_validation (lines : List (List Int)) (ms : ℚ) (ni : Bool)
    (h : 1 < ms) : apriori lines ms ni = [] :=
  apriori_empty_of_gt_one lines ms ni h

theorem c8_witness : (1 : ℚ) < 2 ∧ apriori [[9,3],[9,4]] 2 true = [] :=
  ⟨by norm_num, c8_no_validation [[9,3],[9,4]] 2 true (by norm_num)⟩

/-- Claim C9: `ap_genRules` terminates on every input — recursion depth
never exceeds 2, because a non-empty grown consequent set makes the
confidence loop raise before the recursive call, and an empty one is
rejected by the guard on the next call; the fuel-indexed variant with fuel
2 therefore never runs out and agrees with the recursive function on all
inputs. -/
theorem c9_ap_genRules_terminates (f_k : List Int) (H_m : List (List Int))
    (n : Nat) (mc : ℚ) (lines : List (List Int)) :
    ap_genRulesGo 2 f_k H_m n mc lines = some (ap_genRules f_k H_m n mc lines) := by
  unfold ap_genRulesGo
  by_cases h : H_m ≠ [] ∧ f_k ≠ [] ∧ H_m.headI.length < f_k.length
  · rw [if_pos h]
    unfold ap_genRules
    rw [dif_pos h]
    cases hc : candidate_gen H_m with
    | nil =>
      unfold ap_genRulesGo ap_genRules
      have hng : ¬(([] : List (List Int)) ≠ [] ∧ f_k ≠ [] ∧
          ([] : List (List Int)).headI.length < f_k.length) := by
        intro hcon
        exact hcon.1 rfl
      rw [if_neg hng, dif_neg hng]
    | cons hd tl => by_cases hl : lines = [] <;> simp [hl]
  · rw [if_neg h]
    unfold ap_genRules
    rw [dif_neg h]

/-- Claim C10: the `noindex` argument of `apriori` is never consulted, so
the two calls agree for every input; moreover the result depends on the
raw lines only through their parsed tails — changing the dropped first
field of any line never changes the output. -/
theorem c10_noindex_irrelevant :
    (∀ (lines : List (List Int)) (ms : ℚ), apriori lines ms true = apriori lines ms false) ∧
      ∀ (lines lines2 : List (List Int)) (ms : ℚ) (ni : Bool),
        lines.map parseLine = lines2.map parseLine →
        apriori lines ms ni = apriori lines2 ms ni :=
  ⟨fun _ _ => rfl, fun lines lines2 ms ni h => apriori_parse_congr lines lines2 ms ni h⟩

theorem c10_witness :
    List.map parseLine [[5,1]] = List.map parseLine [[6,1]] ∧
      apriori [[5,1]] (1/2) true = apriori [[6,1]] (1/2) true :=
  ⟨by decide, c10_noindex_irrelevant.2 [[5,1]] [[6,1]] (1/2) true (by decide)⟩

end WebDataMining
